import Mathlib

/-!
Verification development for the json-viewer repository.

This file gives a shallow embedding, in Lean 4, of the conversion worker
(JSON parse, JSON to CSV, CSV to JSON) found in the repository's worker
source, and of the pagination state machine of the tree renderer
(src/components/TreeView.tsx), followed by theorems settling the frozen
claims about these components.

Modelling conventions:
- JavaScript values flowing through the converter are modelled by the
  inductive type JsValue (null, boolean, number, string, array, object,
  in the sense of the JSON data model).  Object fields are an ordered
  association list, reflecting insertion order.  The exotic JavaScript
  rule that integer-like object keys enumerate before other keys is not
  modelled: key enumeration follows stored order.
- JavaScript numbers are modelled by the rationals.  The model of the
  host Number(string) conversion parses sign, decimal digits, fraction,
  exponent and the 0x/0o/0b radix prefixes exactly; the special values
  positive and negative Infinity and float64 rounding are outside the
  model (no claim exercises them).
- Strings are manipulated as lists of characters (String.data); the
  model of trimming uses Char.isWhitespace-like classification over
  space, tab, carriage return and newline.
-/

/-- JSON-style value as handled by the worker code. -/
inductive JsValue where
  | vnull
  | vbool (b : Bool)
  | vnum (q : ℚ)
  | vstr (s : String)
  | varr (elems : List JsValue)
  | vobj (fields : List (String × JsValue))

/-- Assignment obj[k] = v on a JavaScript object: replaces the value in
place if the key is present, otherwise appends the new binding. -/
def objInsert : List (String × JsValue) → String → JsValue → List (String × JsValue)
  | [], k, v => [(k, v)]
  | (k0, v0) :: rest, k, v =>
    if k0 = k then (k, v) :: rest else (k0, v0) :: objInsert rest k v

/-- Property read obj[k] on a JavaScript object (first binding wins;
objects built by objInsert have distinct keys). -/
def objGet : List (String × JsValue) → String → Option JsValue
  | [], _ => none
  | (k0, v0) :: rest, k => if k0 = k then some v0 else objGet rest k

/-- Whitespace classification used by the model of String.prototype.trim. -/
def isWsChar (c : Char) : Bool :=
  c = ' ' || c = '\t' || c = '\n' || c = '\r'

/-- Model of String.prototype.trim. -/
def trimChars (cs : List Char) : List Char :=
  ((cs.dropWhile isWsChar).reverse.dropWhile isWsChar).reverse

/-- Prepend a character to the first chunk of a split result. -/
def consHead (c : Char) : List (List Char) → List (List Char)
  | [] => [[c]]
  | l :: ls => (c :: l) :: ls

/-- First half of the CRLF-or-LF line split: rewrite each carriage
return immediately followed by a newline into the bare newline. -/
def stripCr : List Char → List Char
  | [] => []
  | [c] => [c]
  | c1 :: c2 :: rest =>
    if c1 = '\r' ∧ c2 = '\n' then '\n' :: stripCr rest
    else c1 :: stripCr (c2 :: rest)

/-- Second half of the line split: split at every newline character. -/
def splitNl : List Char → List (List Char)
  | [] => [[]]
  | c :: rest =>
    if c = '\n' then [] :: splitNl rest
    else consHead c (splitNl rest)

/-- Model of splitting on the regex matching CRLF or LF, as in
csv.trim().split in csvToJson: a CRLF pair and a bare LF are
separators, a bare CR is ordinary text. -/
def splitLines (cs : List Char) : List (List Char) :=
  splitNl (stripCr cs)

/-- Model of the plain split(',') used for the header line. -/
def splitCommas : List Char → List (List Char)
  | [] => [[]]
  | c :: rest =>
    if c = ',' then [] :: splitCommas rest
    else consHead c (splitCommas rest)

/-- Model of the data-row splitter: the source splits on the regex
matching a comma followed (lookahead) by an even number of double
quotes up to the end of the line, i.e. a comma outside quoted spans. -/
def splitFields : List Char → List (List Char)
  | [] => [[]]
  | c :: rest =>
    if c = ',' && (rest.count '"') % 2 = 0 then [] :: splitFields rest
    else consHead c (splitFields rest)

/-- Model of replace of every double quote by two double quotes (the
field escaping step of jsonToCsv). -/
def escapeQuotes : List Char → List Char
  | [] => []
  | c :: rest =>
    if c = '"' then '"' :: '"' :: escapeQuotes rest
    else c :: escapeQuotes rest

/-- Model of replace of every doubled double quote by a single one (the
field unescaping step of csvToJson). -/
def unescapeQuotes : List Char → List Char
  | [] => []
  | '"' :: '"' :: rest => '"' :: unescapeQuotes rest
  | c :: rest => c :: unescapeQuotes rest

/-- Model of the header cleanup replace removing one leading and one
trailing double quote character. -/
def stripEdgeQuotes (cs : List Char) : List Char :=
  let a := if cs.head? = some '"' then cs.drop 1 else cs
  if a.getLast? = some '"' then a.dropLast else a

/-- Model of String.prototype.toLowerCase (ASCII is what matters here). -/
def lowerChars (cs : List Char) : List Char :=
  cs.map Char.toLower

/-- Decimal digit list of a natural number. -/
def natStr (n : ℕ) : String :=
  String.mk (Nat.toDigits 10 n)

/-- Numeric value of a list of decimal digit characters, most
significant first (the empty list counts as zero, as in the host
conversion where the integer or fraction part may be absent). -/
def digitsToNat (ds : List Char) : ℕ :=
  ds.foldl (fun a c => 10 * a + (c.toNat - 48)) 0

/-- Value of a hexadecimal digit character. -/
def hexVal (c : Char) : Option ℕ :=
  if '0' ≤ c ∧ c ≤ '9' then some (c.toNat - 48)
  else if 'a' ≤ c ∧ c ≤ 'f' then some (c.toNat - 87)
  else if 'A' ≤ c ∧ c ≤ 'F' then some (c.toNat - 55)
  else none

/-- Split a char list at the first exponent marker e or E. -/
def splitAtE : List Char → List Char × Option (List Char)
  | [] => ([], none)
  | c :: rest =>
    if c = 'e' || c = 'E' then ([], some rest)
    else
      let (m, e) := splitAtE rest
      (c :: m, e)

/-- Parse the mantissa of a host-language decimal number literal:
digits, optionally followed by a dot and further digits, with at least
one digit overall. -/
def parseMant (cs : List Char) : Option ℚ :=
  let ip := cs.takeWhile Char.isDigit
  let rest := cs.dropWhile Char.isDigit
  match rest with
  | [] => if ip.isEmpty then none else some (digitsToNat ip)
  | '.' :: fp =>
    if fp.all Char.isDigit ∧ (ip ≠ [] ∨ fp ≠ []) then
      some ((digitsToNat ip : ℚ) + (digitsToNat fp : ℚ) / (10 : ℚ) ^ fp.length)
    else none
  | _ => none

/-- Parse the exponent of a host-language decimal number literal. -/
def parseExpDigits : List Char → Option ℤ
  | '+' :: ds => if ds ≠ [] ∧ ds.all Char.isDigit then some (digitsToNat ds) else none
  | '-' :: ds => if ds ≠ [] ∧ ds.all Char.isDigit then some (-(digitsToNat ds : ℤ)) else none
  | ds => if ds ≠ [] ∧ ds.all Char.isDigit then some (digitsToNat ds) else none

/-- Parse an unsigned host-language decimal literal with optional
exponent part. -/
def parseDec (cs : List Char) : Option ℚ :=
  match splitAtE cs with
  | (mant, none) => parseMant mant
  | (mant, some ecs) =>
    match parseMant mant, parseExpDigits ecs with
    | some m, some e => some (m * (10 : ℚ) ^ e)
    | _, _ => none

/-- Parse a radix-prefixed digit string (hex, octal or binary). -/
def parseRadix (base : ℕ) (isDig : Char → Bool) (val : Char → ℕ) (ds : List Char) : Option ℚ :=
  if ds ≠ [] ∧ ds.all isDig then
    some ((ds.foldl (fun a c => base * a + val c) 0 : ℕ) : ℚ)
  else none

/-- Model of the host Number(string) conversion, returning none exactly
when the conversion yields NaN.  Handles surrounding whitespace (empty
or blank input converts to 0), an optional sign on decimal literals,
fraction and exponent parts, and unsigned 0x/0o/0b radix literals.
Infinity and float64 rounding are outside the model. -/
def jsNumber (s : List Char) : Option ℚ :=
  let t := trimChars s
  if t.isEmpty then some 0
  else
    match t with
    | '0' :: 'x' :: rest => parseRadix 16 (fun c => (hexVal c).isSome) (fun c => (hexVal c).getD 0) rest
    | '0' :: 'X' :: rest => parseRadix 16 (fun c => (hexVal c).isSome) (fun c => (hexVal c).getD 0) rest
    | '0' :: 'o' :: rest => parseRadix 8 (fun c => '0' ≤ c && c ≤ '7') (fun c => c.toNat - 48) rest
    | '0' :: 'O' :: rest => parseRadix 8 (fun c => '0' ≤ c && c ≤ '7') (fun c => c.toNat - 48) rest
    | '0' :: 'b' :: rest => parseRadix 2 (fun c => c = '0' || c = '1') (fun c => c.toNat - 48) rest
    | '0' :: 'B' :: rest => parseRadix 2 (fun c => c = '0' || c = '1') (fun c => c.toNat - 48) rest
    | '+' :: rest => parseDec rest
    | '-' :: rest => (parseDec rest).map Neg.neg
    | _ => parseDec t

/-- Decimal digit characters of a natural number, padded on the left
with zeros to the given width. -/
def padDigits (width : ℕ) (ds : List Char) : List Char :=
  List.replicate (width - ds.length) '0' ++ ds

/-- Model of the host number-to-string conversion on the rationals the
converter can produce: integers print as signed decimal numerals, and a
rational with a finite decimal expansion prints with a dot.  The
exponential notation the host uses for very large or very small
magnitudes is outside the model (no claim exercises it). -/
def numToString (q : ℚ) : String :=
  let sign := if q < 0 then "-" else ""
  let a := q.num.natAbs
  let b := q.den
  match (List.range 101).find? (fun k => b ∣ 10 ^ k) with
  | some 0 => sign ++ String.mk (Nat.toDigits 10 a)
  | some k =>
    let scaled := a * (10 ^ k) / b
    sign ++ String.mk (Nat.toDigits 10 (scaled / 10 ^ k)) ++ "." ++
      String.mk (padDigits k (Nat.toDigits 10 (scaled % 10 ^ k)))
  | none =>
    let scaled := a * (10 ^ 100) / b
    sign ++ String.mk (Nat.toDigits 10 (scaled / 10 ^ 100)) ++ "." ++
      String.mk (padDigits 100 (Nat.toDigits 10 (scaled % 10 ^ 100)))

mutual

/-- Structural size of a value, used as ample fuel for the recursion of
the string coercion through arrays. -/
def jsSize : JsValue → ℕ
  | .vnull => 1
  | .vbool _ => 1
  | .vnum _ => 1
  | .vstr _ => 1
  | .varr xs => 1 + jsSizeList xs
  | .vobj fs => 1 + jsSizeFields fs

/-- Summed size of a list of values. -/
def jsSizeList : List JsValue → ℕ
  | [] => 0
  | x :: xs => 1 + jsSize x + jsSizeList xs

/-- Summed size of an object field list. -/
def jsSizeFields : List (String × JsValue) → ℕ
  | [] => 0
  | kv :: fs => 1 + jsSize kv.2 + jsSizeFields fs

end

/-- Fuel-indexed model of the host String(value) coercion: null prints
as null, booleans by name, numbers in decimal, arrays join their
elements with commas (null elements joining as the empty chunk), and
plain objects print as the usual object placeholder text.  Only the
recursion through array elements consumes fuel, and jsSize exceeds the
nesting depth, so the fuel is ample. -/
def jsStringOfCore (fuel : ℕ) (v : JsValue) : String :=
  match v with
  | .vnull => "null"
  | .vbool true => "true"
  | .vbool false => "false"
  | .vnum q => numToString q
  | .vstr s => s
  | .vobj _ => "[object Object]"
  | .varr xs =>
    match fuel with
    | 0 => ""
    | f + 1 =>
      String.intercalate ","
        (xs.map (fun x => match x with
          | .vnull => ""
          | y => jsStringOfCore f y))

/-- Model of the host String(value) coercion. -/
def jsStringOf (v : JsValue) : String :=
  jsStringOfCore (jsSize v) v

/-- Discriminates the values for which typeof value is object and the
value is not null: arrays and plain objects. -/
def isObjLike : JsValue → Bool
  | .varr _ => true
  | .vobj _ => true
  | _ => false

/-- Model of Object.keys: field names of a plain object in stored
order, index strings for an array. -/
def jsKeys : JsValue → List String
  | .vobj fs => fs.map Prod.fst
  | .varr xs => (List.range xs.length).map natStr
  | _ => []

/-- Array member read arr[k] with a string key, which the host resolves
to an element exactly when the key is the canonical numeral of an index
in range. -/
def arrGet (xs : List JsValue) (key : String) : Option JsValue :=
  match (List.range xs.length).find? (fun i => natStr i = key) with
  | some i => xs.get? i
  | none => none

/-- Property read value[k]: association lookup on plain objects, index
resolution on arrays, undefined on everything else. -/
def jsGet : JsValue → String → Option JsValue
  | .vobj fs, key => objGet fs key
  | .varr xs, key => arrGet xs key
  | _, _ => none

/-- Insertion into the header accumulator, as a Set keeping first
insertion order. -/
def insertKey (acc : List String) (k : String) : List String :=
  if k ∈ acc then acc else acc ++ [k]

/-- Header key collection of jsonToCsv: scan every element, and for the
object-like ones add each own key to the set. -/
def collectKeys (items : List JsValue) : List String :=
  items.foldl
    (fun acc it => if isObjLike it then (jsKeys it).foldl insertKey acc else acc)
    []

/-- One emitted CSV field of jsonToCsv: the property value coerced to
text (null or undefined giving the empty text), quotes doubled, and the
whole wrapped in double quotes. -/
def csvFieldFor (item : JsValue) (header : String) : String :=
  let stringVal : List Char :=
    match jsGet item header with
    | none => []
    | some .vnull => []
    | some v => (jsStringOf v).data
  "\"" ++ String.mk (escapeQuotes stringVal) ++ "\""

/-- One emitted CSV data row of jsonToCsv. -/
def rowFor (headers : List String) (item : JsValue) : String :=
  String.intercalate "," (headers.map (csvFieldFor item))

/-- The list of CSV lines jsonToCsv builds for a non-empty input array:
the header line followed by one row per object-like element (the
non-object elements are skipped by the continue). -/
def csvRowsOf (items : List JsValue) : List String :=
  String.intercalate "," (collectKeys items) ::
    (items.filter isObjLike).map (rowFor (collectKeys items))

/-- Model of jsonToCsv from the worker source: a non-array or empty
input gives the empty text, otherwise the newline join of the built
lines. -/
def jsonToCsv : JsValue → String
  | .varr items => if items.isEmpty then "" else String.intercalate "\n" (csvRowsOf items)
  | _ => ""

/-- The per-field quote stripping of csvToJson: when the field starts
and ends with a double quote, drop one from each end and unescape
doubled quotes. -/
def unquoteField (t : List Char) : List Char :=
  if t.head? = some '"' ∧ t.getLast? = some '"' then
    unescapeQuotes ((t.drop 1).dropLast)
  else t

/-- The type-coercion cascade of csvToJson applied to the cleaned field
text: empty becomes null, else a full numeric parse becomes a number,
else case-insensitive true/false become booleans, else the text stays a
string. -/
def coerceVal (val : List Char) : JsValue :=
  if val = [] then .vnull
  else if (jsNumber val).isSome ∧ 0 < val.length then .vnum ((jsNumber val).getD 0)
  else if lowerChars val = "true".data then .vbool true
  else if lowerChars val = "false".data then .vbool false
  else .vstr (String.mk val)

/-- Full treatment of one raw data field of csvToJson: trim, unquote,
coerce. -/
def coerceField (raw : List Char) : JsValue :=
  coerceVal (unquoteField (trimChars raw))

/-- The forEach over headers with index of csvToJson: each header whose
index has a field in the row gets the coerced field assigned; headers
beyond the row's fields are skipped. -/
def buildRowAux (values : List (List Char)) :
    List (List Char) → ℕ → List (String × JsValue) → List (String × JsValue)
  | [], _, obj => obj
  | h :: hs, i, obj =>
    buildRowAux values hs (i + 1)
      (match values.get? i with
       | some raw => objInsert obj (String.mk h) (coerceField raw)
       | none => obj)

/-- The object csvToJson builds for one data row. -/
def buildRow (headers values : List (List Char)) : List (String × JsValue) :=
  buildRowAux values headers 0 []

/-- Model of csvToJson from the worker source, with each produced
object kept as its field list: trim the input, split into lines, stop
with no rows when fewer than two lines remain, otherwise read the
header names from the first line and build one object per non-blank
data line. -/
def csvToJsonRows (csv : String) : List (List (String × JsValue)) :=
  let lines := splitLines (trimChars csv.data)
  if lines.length < 2 then []
  else
    let headers := (splitCommas (lines.headD [])).map (fun h => stripEdgeQuotes (trimChars h))
    (((lines.drop 1).map trimChars).filter (fun l => l ≠ [])).map
      (fun l => buildRow headers (splitFields l))

/-- Model of csvToJson returning the produced array of objects as a
value list. -/
def csvToJson (csv : String) : List JsValue :=
  (csvToJsonRows csv).map .vobj

/-- Failure causes an exception can carry inside the worker: the
syntax-error kinds of the host JSON parser, and the type error raised
when csvToJson receives a non-string payload. -/
inductive JsErr where
  | unexpectedEnd
  | unexpectedChar (c : Char)
  | badEscape
  | controlChar
  | badNumber
  | trailingChars (c : Char)
  | notAString
  | outOfFuel

/-- Human-readable message of an exception, as read from the message
property by the worker's catch handler. -/
def JsErr.message : JsErr → String
  | .unexpectedEnd => "Unexpected end of JSON input"
  | .unexpectedChar _ => "Unexpected token in JSON"
  | .badEscape => "Bad escaped character in JSON"
  | .controlChar => "Bad control character in JSON string literal"
  | .badNumber => "Invalid number in JSON"
  | .trailingChars _ => "Unexpected non-whitespace character after JSON data"
  | .notAString => "csv.trim is not a function"
  | .outOfFuel => "Nesting of JSON input is too deep"

/-- JSON insignificant whitespace. -/
def jsonWs (c : Char) : Bool :=
  c = ' ' || c = '\t' || c = '\n' || c = '\r'

/-- Skip insignificant whitespace. -/
def skipJWs (cs : List Char) : List Char :=
  cs.dropWhile jsonWs

/-- Consume an expected literal tail (the ull of null, and so on). -/
def expectLit : List Char → List Char → Except JsErr (List Char)
  | [], rest => .ok rest
  | _ :: _, [] => .error .unexpectedEnd
  | l :: ls, c :: rest => if c = l then expectLit ls rest else .error (.unexpectedChar c)

/-- Escape character resolution inside a JSON string literal. -/
def escChar : Char → Option Char
  | '"' => some '"'
  | '\\' => some '\\'
  | '/' => some '/'
  | 'b' => some '\x08'
  | 'f' => some '\x0c'
  | 'n' => some '\n'
  | 'r' => some '\r'
  | 't' => some '\t'
  | _ => none

/-- Body of a JSON string literal after the opening quote: plain
characters up to the closing quote, backslash escapes, and four-digit
unicode escapes; unescaped control characters are rejected.  Lone
surrogate escapes collapse to the null character (a host-model
restriction no claim exercises). -/
def parseJStringBody : List Char → Except JsErr (List Char × List Char)
  | [] => .error .unexpectedEnd
  | '"' :: rest => .ok ([], rest)
  | '\\' :: 'u' :: h1 :: h2 :: h3 :: h4 :: rest =>
    match hexVal h1, hexVal h2, hexVal h3, hexVal h4 with
    | some a, some b, some c, some d =>
      (parseJStringBody rest).map
        (fun p => (Char.ofNat (((a * 16 + b) * 16 + c) * 16 + d) :: p.1, p.2))
    | _, _, _, _ => .error .badEscape
  | '\\' :: e :: rest =>
    match escChar e with
    | some c => (parseJStringBody rest).map (fun p => (c :: p.1, p.2))
    | none => .error .badEscape
  | c :: rest =>
    if c.toNat < 32 then .error .controlChar
    else (parseJStringBody rest).map (fun p => (c :: p.1, p.2))

/-- Integer part of a JSON number: a bare zero, or a nonzero digit
followed by digits. -/
def parseJInt : List Char → Except JsErr (ℕ × List Char)
  | [] => .error .unexpectedEnd
  | '0' :: rest => .ok (0, rest)
  | c :: rest =>
    if c.isDigit then
      .ok (digitsToNat ((c :: rest).takeWhile Char.isDigit), (c :: rest).dropWhile Char.isDigit)
    else .error (.unexpectedChar c)

/-- Optional fraction part of a JSON number. -/
def parseJFrac : List Char → Except JsErr (ℚ × List Char)
  | '.' :: rest =>
    let fd := rest.takeWhile Char.isDigit
    if fd = [] then .error .badNumber
    else .ok ((digitsToNat fd : ℚ) / (10 : ℚ) ^ fd.length, rest.dropWhile Char.isDigit)
  | cs => .ok (0, cs)

/-- Optional exponent part of a JSON number. -/
def parseJExp : List Char → Except JsErr (ℤ × List Char)
  | [] => .ok (0, [])
  | e :: rest =>
    if e = 'e' || e = 'E' then
      let (sgn, r1) : ℤ × List Char :=
        match rest with
        | '+' :: r => (1, r)
        | '-' :: r => (-1, r)
        | r => (1, r)
      let ed := r1.takeWhile Char.isDigit
      if ed = [] then .error .badNumber
      else .ok (sgn * (digitsToNat ed : ℤ), r1.dropWhile Char.isDigit)
    else .ok (0, e :: rest)

/-- A complete JSON number starting at the given characters. -/
def parseJNum (cs : List Char) : Except JsErr (ℚ × List Char) := do
  let (neg, cs1) : Bool × List Char :=
    match cs with
    | '-' :: r => (true, r)
    | r => (false, r)
  let (ip, cs2) ← parseJInt cs1
  let (fp, cs3) ← parseJFrac cs2
  let (ex, cs4) ← parseJExp cs3
  let m : ℚ := (ip : ℚ) + fp
  .ok ((if neg then -m else m) * (10 : ℚ) ^ ex, cs4)

mutual

/-- Recursive-descent model of the host JSON.parse grammar for a single
value; the fuel bounds the recursion and is ample for the initial
supply chosen by jsonParse on every input a claim exercises. -/
def parseJVal : ℕ → List Char → Except JsErr (JsValue × List Char)
  | 0, _ => .error .outOfFuel
  | fuel + 1, cs =>
    match skipJWs cs with
    | [] => .error .unexpectedEnd
    | 'n' :: rest => (expectLit ['u', 'l', 'l'] rest).map (fun r => (.vnull, r))
    | 't' :: rest => (expectLit ['r', 'u', 'e'] rest).map (fun r => (.vbool true, r))
    | 'f' :: rest => (expectLit ['a', 'l', 's', 'e'] rest).map (fun r => (.vbool false, r))
    | '"' :: rest => (parseJStringBody rest).map (fun p => (.vstr (String.mk p.1), p.2))
    | '[' :: rest => parseJArrItems fuel rest
    | '\x7b' :: rest => parseJObjItems fuel rest
    | c :: rest =>
      if c = '-' || c.isDigit then (parseJNum (c :: rest)).map (fun p => (.vnum p.1, p.2))
      else .error (.unexpectedChar c)

/-- Elements of a JSON array after the opening bracket. -/
def parseJArrItems : ℕ → List Char → Except JsErr (JsValue × List Char)
  | 0, _ => .error .outOfFuel
  | fuel + 1, cs =>
    match skipJWs cs with
    | ']' :: rest => .ok (.varr [], rest)
    | cs2 => do
      let (v, r1) ← parseJVal fuel cs2
      parseJArrRest fuel [v] r1

/-- Continuation of a JSON array after at least one element. -/
def parseJArrRest : ℕ → List JsValue → List Char → Except JsErr (JsValue × List Char)
  | 0, _, _ => .error .outOfFuel
  | fuel + 1, acc, cs =>
    match skipJWs cs with
    | ',' :: rest => do
      let (v, r1) ← parseJVal fuel rest
      parseJArrRest fuel (acc ++ [v]) r1
    | ']' :: rest => .ok (.varr acc, rest)
    | c :: _ => .error (.unexpectedChar c)
    | [] => .error .unexpectedEnd

/-- Members of a JSON object after the opening brace. -/
def parseJObjItems : ℕ → List Char → Except JsErr (JsValue × List Char)
  | 0, _ => .error .outOfFuel
  | fuel + 1, cs =>
    match skipJWs cs with
    | '\x7d' :: rest => .ok (.vobj [], rest)
    | '"' :: rest => do
      let p ← parseJStringBody rest
      parseJObjPair fuel [] (String.mk p.1) p.2
    | c :: _ => .error (.unexpectedChar c)
    | [] => .error .unexpectedEnd

/-- Colon and value of one JSON object member, then the continuation. -/
def parseJObjPair : ℕ → List (String × JsValue) → String → List Char →
    Except JsErr (JsValue × List Char)
  | 0, _, _, _ => .error .outOfFuel
  | fuel + 1, acc, k, cs =>
    match skipJWs cs with
    | ':' :: rest => do
      let (v, r1) ← parseJVal fuel rest
      parseJObjRest fuel (objInsert acc k v) r1
    | c :: _ => .error (.unexpectedChar c)
    | [] => .error .unexpectedEnd

/-- Continuation of a JSON object after at least one member. -/
def parseJObjRest : ℕ → List (String × JsValue) → List Char →
    Except JsErr (JsValue × List Char)
  | 0, _, _ => .error .outOfFuel
  | fuel + 1, acc, cs =>
    match skipJWs cs with
    | ',' :: rest =>
      (match skipJWs rest with
       | '"' :: r2 => do
         let p ← parseJStringBody r2
         parseJObjPair fuel acc (String.mk p.1) p.2
       | c :: _ => .error (.unexpectedChar c)
       | [] => .error .unexpectedEnd)
    | '\x7d' :: rest => .ok (.vobj acc, rest)
    | c :: _ => .error (.unexpectedChar c)
    | [] => .error .unexpectedEnd

end

/-- Model of the host JSON.parse: parse one value and insist nothing
but whitespace follows. -/
def jsonParse (s : String) : Except JsErr JsValue :=
  match parseJVal (s.data.length + 1) s.data with
  | .error e => .error e
  | .ok (v, rest) =>
    match skipJWs rest with
    | [] => .ok v
    | c :: _ => .error (.trailingChars c)

/-- Message posted to the worker from the page: an operation name, a
payload and a correlation id. -/
structure WRequest where
  type : String
  data : JsValue
  id : JsValue

/-- Message posted back by the worker: a success reply carrying the id
and the result (possibly the undefined result of an unrecognized
operation), or an error reply carrying the id and the caught message. -/
inductive WReply where
  | success (id : JsValue) (result : Option JsValue)
  | error (id : JsValue) (message : String)

/-- Body of the try block of the worker dispatcher: the switch on the
operation name, with the result left undefined for unrecognized
operations.  PARSE applies the host parser to the payload coerced to
text; CSV_TO_JSON throws the host type error on a non-string payload
because the code calls trim on it. -/
def runWorker (req : WRequest) : Except JsErr (Option JsValue) :=
  if req.type = "PARSE" then (jsonParse (jsStringOf req.data)).map some
  else if req.type = "JSON_TO_CSV" then .ok (some (.vstr (jsonToCsv req.data)))
  else if req.type = "CSV_TO_JSON" then
    match req.data with
    | .vstr s => .ok (some (.varr (csvToJson s)))
    | _ => .error .notAString
  else .ok none

/-- Model of the worker's onmessage handler: the list of postMessage
calls made for one incoming request — one success reply when the try
block completes, one error reply carrying the exception message when it
throws. -/
def onmessage (req : WRequest) : List WReply :=
  match runWorker req with
  | .ok r => [.success req.id r]
  | .error e => [.error req.id e.message]

/-- Page size of the tree renderer (ITEMS_PER_PAGE in TreeView.tsx). -/
def ITEMS_PER_PAGE : ℕ := 50

/-- Per-node interactive state of the tree renderer: the two useState
hooks of JsonTree. -/
structure TreeNodeState where
  isExpanded : Bool
  displayLimit : ℕ

/-- Initial hook state of a node at the given depth: only the root
(depth zero) starts expanded, and the display limit starts at one
page. -/
def initTreeState (depth : ℕ) : TreeNodeState :=
  { isExpanded := decide (depth < 1), displayLimit := ITEMS_PER_PAGE }

/-- The toggleExpand click handler. -/
def toggleExpand (s : TreeNodeState) : TreeNodeState :=
  { s with isExpanded := !s.isExpanded }

/-- The showMore click handler: one more page. -/
def showMore (s : TreeNodeState) : TreeNodeState :=
  { s with displayLimit := s.displayLimit + ITEMS_PER_PAGE }

/-- The showAll click handler: the limit jumps to the number of keys of
the node's data. -/
def showAll (s : TreeNodeState) (data : JsValue) : TreeNodeState :=
  { s with displayLimit := (jsKeys data).length }

/-- Number of children the node renders: the visibleKeys slice is
mapped to child nodes exactly when the node is an expanded non-empty
container. -/
def renderedChildren (s : TreeNodeState) (data : JsValue) : ℕ :=
  if isObjLike data ∧ s.isExpanded ∧ (jsKeys data).length ≠ 0 then
    ((jsKeys data).take s.displayLimit).length
  else 0

/-- Comparison definition for claim C2, following the specification
words for the per-field treatment: the field is trimmed, unquoted if
quoted, and coerced in priority order empty-to-null, then full numeric
parse, then case-insensitive true or false, else left a string. -/
def coerceFieldSpec (raw : List Char) : JsValue :=
  let u := unquoteField (trimChars raw)
  if u = [] then .vnull
  else
    match jsNumber u with
    | some q => .vnum q
    | none =>
      if lowerChars u = "true".data then .vbool true
      else if lowerChars u = "false".data then .vbool false
      else .vstr (String.mk u)

/-- Comparison definition for claims C1 and C6, following the
specification words for the header sequence: each key exactly once, at
the position of its first occurrence in the scan. -/
def dedupKeepFirst : List String → List String
  | [] => []
  | a :: rest => a :: dedupKeepFirst (rest.filter (fun b => decide (b ≠ a)))
termination_by l => l.length
decreasing_by simp_wf; exact Nat.lt_succ_of_le (List.length_filter_le _ _)

/-- The key sequence produced by the header scan of jsonToCsv before
deduplication: the own keys of each object-like element in element
order, nothing from the other elements. -/
def scannedKeys (items : List JsValue) : List String :=
  items.flatMap (fun it => if isObjLike it then jsKeys it else [])

theorem JsErr_message_ne (e : JsErr) : e.message ≠ "" := by
  cases e <;> (simp only [JsErr.message]; decide)

theorem jsStringOf_vstr (s : String) : jsStringOf (.vstr s) = s := rfl

/-- Claim C3: a mapping field holding the text a comma quote b quote is
emitted by toCsv wrapped in quotes with inner quotes doubled, and
fromCsv on the emitted text recovers exactly the original string for
that key. -/
theorem claim_C3 :
    jsonToCsv (.varr [.vobj [("k", .vstr "a,\"b\"")]]) = "k\n\"a,\"\"b\"\"\"" ∧
    csvToJsonRows (jsonToCsv (.varr [.vobj [("k", .vstr "a,\"b\"")]])) =
      [[("k", JsValue.vstr "a,\"b\"")]] :=
  ⟨rfl, rfl⟩

/-- Claim C2: the per-field coercion of fromCsv is exactly the
specified priority cascade (trim, unquote, empty to null, full numeric
parse to number, case-insensitive booleans, else string), and on the
two-line text id newline 007 fromCsv yields the single mapping sending
id to the number seven. -/
theorem claim_C2 :
    (∀ raw : List Char, coerceField raw = coerceFieldSpec raw) ∧
    csvToJsonRows "id\n007" = [[("id", JsValue.vnum 7)]] := by
  refine ⟨?_, rfl⟩
  intro raw
  unfold coerceField coerceFieldSpec coerceVal
  set u := unquoteField (trimChars raw) with hu
  by_cases h : u = []
  · simp [h]
  · have hlen : 0 < u.length := List.length_pos.mpr h
    cases hn : jsNumber u
    · simp [h, hn]
    · simp [h, hn, hlen]

/-- Claim C9: a request whose operation name is none of the three
recognized kinds gets a success reply with an undefined result, not an
error reply. -/
theorem claim_C9 (ty : String) (data id : JsValue)
    (h1 : ty ≠ "PARSE") (h2 : ty ≠ "JSON_TO_CSV") (h3 : ty ≠ "CSV_TO_JSON") :
    onmessage ⟨ty, data, id⟩ = [.success id none] := by
  simp [onmessage, runWorker, h1, h2, h3]

theorem claim_C9_witness : onmessage ⟨"FOO", .vnull, .vnum 1⟩ = [.success (.vnum 1) none] :=
  claim_C9 "FOO" .vnull (.vnum 1) (by decide) (by decide) (by decide)

/-- Claim C4: a PARSE request whose payload fails to parse gets exactly
one reply, an error reply carrying the request id and a non-empty
message, and never a success reply. -/
theorem claim_C4 (s : String) (id : JsValue) (e : JsErr)
    (h : jsonParse s = .error e) :
    onmessage ⟨"PARSE", .vstr s, id⟩ = [.error id e.message] ∧
    e.message ≠ "" ∧
    ∀ (i : JsValue) (r : Option JsValue),
      WReply.success i r ∉ onmessage ⟨"PARSE", .vstr s, id⟩ := by
  have hrun : runWorker ⟨"PARSE", .vstr s, id⟩ = .error e := by
    simp [runWorker, jsStringOf_vstr, h, Except.map]
  refine ⟨?_, JsErr_message_ne e, ?_⟩
  · simp [onmessage, hrun]
  · intro i r hmem
    simp [onmessage, hrun] at hmem

theorem claim_C4_witness :
    onmessage ⟨"PARSE", .vstr "\x7b", .vnum 0⟩ =
      [.error (.vnum 0) "Unexpected end of JSON input"] ∧
    ("Unexpected end of JSON input" : String) ≠ "" := by
  have h := claim_C4 "\x7b" (.vnum 0) .unexpectedEnd rfl
  exact ⟨h.1, h.2.1⟩

theorem coerceVal_ne_emptyStr (val : List Char) : coerceVal val ≠ .vstr "" := by
  unfold coerceVal
  split
  · exact fun hEq => JsValue.noConfusion hEq
  next h =>
    split
    · exact fun hEq => JsValue.noConfusion hEq
    split
    · exact fun hEq => JsValue.noConfusion hEq
    split
    · exact fun hEq => JsValue.noConfusion hEq
    intro hEq
    injection hEq with hs
    exact h (by simpa using congrArg String.data hs)

theorem mem_objInsert (obj : List (String × JsValue)) (k : String) (v : JsValue)
    (kv : String × JsValue) (h : kv ∈ objInsert obj k v) : kv = (k, v) ∨ kv ∈ obj := by
  induction obj with
  | nil => simpa [objInsert] using h
  | cons kv0 rest ih =>
    obtain ⟨k0, v0⟩ := kv0
    by_cases hk : k0 = k
    · simp only [objInsert, if_pos hk] at h
      rcases List.mem_cons.mp h with h1 | h2
      · exact Or.inl h1
      · exact Or.inr (List.mem_cons_of_mem _ h2)
    · simp only [objInsert, if_neg hk] at h
      rcases List.mem_cons.mp h with h1 | h2
      · exact Or.inr (h1 ▸ List.mem_cons_self _ _)
      · rcases ih h2 with h3 | h4
        · exact Or.inl h3
        · exact Or.inr (List.mem_cons_of_mem _ h4)

theorem mem_buildRowAux (values : List (List Char)) (hs : List (List Char)) (i : ℕ)
    (obj : List (String × JsValue)) (kv : String × JsValue)
    (h : kv ∈ buildRowAux values hs i obj) :
    (∃ raw, kv.2 = coerceField raw) ∨ kv ∈ obj := by
  induction hs generalizing i obj with
  | nil => exact Or.inr h
  | cons hd tl ih =>
    cases hv : values.get? i with
    | none =>
      simp only [buildRowAux, hv] at h
      exact ih _ _ h
    | some raw =>
      simp only [buildRowAux, hv] at h
      rcases ih _ _ h with h1 | h2
      · exact Or.inl h1
      · rcases mem_objInsert _ _ _ _ h2 with h3 | h4
        · exact Or.inl ⟨raw, by rw [h3]⟩
        · exact Or.inr h4

/-- Claim C10: no value in any mapping produced by fromCsv is the
empty string — every field whose cleaned text is empty (including a
quoted empty field and a field that is one double quote character)
becomes null instead. -/
theorem claim_C10 :
    (∀ (s : String) (row : List (String × JsValue)) (kv : String × JsValue),
      row ∈ csvToJsonRows s → kv ∈ row → kv.2 ≠ .vstr "") ∧
    coerceField ['"', '"'] = .vnull ∧
    coerceField ['"'] = .vnull := by
  refine ⟨?_, rfl, rfl⟩
  intro s row kv hrow hkv
  simp only [csvToJsonRows] at hrow
  split at hrow
  · simp at hrow
  · rcases List.mem_map.mp hrow with ⟨l, _, hl⟩
    rw [← hl] at hkv
    rcases mem_buildRowAux _ _ _ _ _ hkv with ⟨raw, hraw⟩ | hnil
    · rw [hraw]
      exact coerceVal_ne_emptyStr _
    · simp at hnil

theorem claim_C10_witness :
    (("a", JsValue.vstr "b") : String × JsValue).2 ≠ .vstr "" := by
  refine claim_C10.1 "a\nb" [("a", .vstr "b")] ("a", .vstr "b") ?_ ?_
  · rw [show csvToJsonRows "a\nb" = [[("a", JsValue.vstr "b")]] from rfl]
    exact List.mem_singleton.mpr rfl
  · exact List.mem_singleton.mpr rfl

theorem mem_dedupKeepFirst (x : String) : ∀ l, x ∈ dedupKeepFirst l → x ∈ l := by
  intro l
  induction l using dedupKeepFirst.induct with
  | case1 => simp [dedupKeepFirst]
  | case2 a rest ih =>
    intro h
    rw [dedupKeepFirst] at h
    rcases List.mem_cons.mp h with h1 | h2
    · exact h1 ▸ List.mem_cons_self _ _
    · exact List.mem_cons_of_mem _ (List.mem_of_mem_filter (ih h2))

theorem nodup_dedupKeepFirst : ∀ l, (dedupKeepFirst l).Nodup := by
  intro l
  induction l using dedupKeepFirst.induct with
  | case1 => simp [dedupKeepFirst]
  | case2 a rest ih =>
    rw [dedupKeepFirst]
    refine List.nodup_cons.mpr ⟨?_, ih⟩
    intro hmem
    have := mem_dedupKeepFirst _ _ hmem
    simp at this

theorem foldl_insertKey (l acc : List String) :
    l.foldl insertKey acc = acc ++ dedupKeepFirst (l.filter (fun b => decide (b ∉ acc))) := by
  induction l generalizing acc with
  | nil => simp [dedupKeepFirst]
  | cons a tl ih =>
    by_cases h : a ∈ acc
    · rw [List.foldl_cons]
      rw [show insertKey acc a = acc from if_pos h]
      rw [ih]
      congr 2
      simp [List.filter_cons, h]
    · rw [List.foldl_cons]
      rw [show insertKey acc a = acc ++ [a] from if_neg h]
      rw [ih]
      have hfc : (a :: tl).filter (fun b => decide (b ∉ acc)) =
          a :: tl.filter (fun b => decide (b ∉ acc)) := by
        simp [List.filter_cons, h]
      rw [hfc, dedupKeepFirst, List.filter_filter, List.append_assoc, List.singleton_append]
      have hfil : List.filter (fun b => decide (b ∉ acc ++ [a])) tl =
          List.filter (fun x => decide (x ≠ a) && decide (x ∉ acc)) tl := by
        apply List.filter_congr
        intro x _
        have hiff : (x ∉ acc ++ [a]) ↔ (x ≠ a ∧ x ∉ acc) := by
          simp [List.mem_append, not_or, and_comm]
        rw [decide_eq_decide.mpr hiff, Bool.decide_and]
      rw [hfil]

theorem collectKeys_foldl (items : List JsValue) (acc : List String) :
    items.foldl
      (fun acc it => if isObjLike it then (jsKeys it).foldl insertKey acc else acc) acc =
    (scannedKeys items).foldl insertKey acc := by
  induction items generalizing acc with
  | nil => simp [scannedKeys]
  | cons it tl ih =>
    by_cases hob : isObjLike it
    · have hsc : scannedKeys (it :: tl) = jsKeys it ++ scannedKeys tl := by
        simp [scannedKeys, hob]
      rw [List.foldl_cons, if_pos hob, ih, hsc, List.foldl_append]
    · have hsc : scannedKeys (it :: tl) = scannedKeys tl := by
        simp [scannedKeys, hob]
      rw [List.foldl_cons, if_neg hob, ih, hsc]

theorem collectKeys_eq (items : List JsValue) :
    collectKeys items = dedupKeepFirst (scannedKeys items) := by
  rw [collectKeys, collectKeys_foldl, foldl_insertKey, List.nil_append]
  congr 1
  apply List.filter_eq_self.mpr
  intro a _
  simp

theorem scannedKeys_filter (items : List JsValue) :
    scannedKeys items = (items.filter isObjLike).flatMap jsKeys := by
  induction items with
  | nil => simp [scannedKeys]
  | cons it tl ih =>
    by_cases hob : isObjLike it
    · simp [scannedKeys, List.filter_cons, hob] at ih ⊢
      exact ih
    · simp [scannedKeys, List.filter_cons, hob] at ih ⊢
      exact ih

/-- Claim C6: the header sequence of toCsv lists each key exactly once
at the position of its first occurrence across the scan, and on the
two-element example with keys b then a,b the headers come out in order
b then a. -/
theorem claim_C6 :
    (∀ items : List JsValue, collectKeys items = dedupKeepFirst (scannedKeys items)) ∧
    (∀ items : List JsValue, (collectKeys items).Nodup) ∧
    collectKeys [.vobj [("b", .vnum 1)], .vobj [("a", .vnum 1), ("b", .vnum 2)]] = ["b", "a"] ∧
    jsonToCsv (.varr [.vobj [("b", .vnum 1)], .vobj [("a", .vnum 1), ("b", .vnum 2)]]) =
      "b,a\n\"1\",\"\"\n\"2\",\"1\"" := by
  refine ⟨collectKeys_eq, ?_, rfl, rfl⟩
  intro items
  rw [collectKeys_eq]
  exact nodup_dedupKeepFirst _

/-- Claim C1 fails on the code: an array element is not a mapping, yet
its index keys enter the header set and it produces an output row,
because the source's object test (typeof together with a null check)
also accepts arrays. -/
theorem claim_C1_counterexample :
    collectKeys [JsValue.varr [.vnum 1, .vnum 2]] = ["0", "1"] ∧
    (["0", "1"] : List String) ≠ [] ∧
    jsonToCsv (.varr [.varr [.vnum 1, .vnum 2]]) = "0,1\n\"1\",\"2\"" ∧
    jsonToCsv (.varr [.varr [.vnum 1, .vnum 2]]) ≠ "" := by
  exact ⟨rfl, by decide, rfl, by decide⟩

/-- Claim C1 amended: elements that are not object-like (null,
booleans, numbers, strings) contribute nothing to the header set and
produce no output row, while the header set is the first-seen
deduplication of the own keys of the object-like elements — mappings
with their field names, and arrays with their index strings. -/
theorem claim_C1_amended :
    (∀ items : List JsValue,
      collectKeys items = dedupKeepFirst ((items.filter isObjLike).flatMap jsKeys)) ∧
    (∀ items : List JsValue,
      (csvRowsOf items).length = 1 + (items.filter isObjLike).length) ∧
    (∀ items : List JsValue,
      (∀ v ∈ items, isObjLike v = false) → jsonToCsv (.varr items) = "") := by
  refine ⟨?_, ?_, ?_⟩
  · intro items
    rw [collectKeys_eq, scannedKeys_filter]
  · intro items
    simp only [csvRowsOf, List.length_cons, List.length_map]
    omega
  · intro items hall
    rcases items with _ | ⟨it, tl⟩
    · rfl
    · have hfil : (it :: tl).filter isObjLike = [] := by
        apply List.filter_eq_nil_iff.mpr
        intro a ha
        simp [hall a ha]
      have hkeys : collectKeys (it :: tl) = [] := by
        rw [collectKeys_eq, scannedKeys_filter, hfil]
        simp [dedupKeepFirst]
      show jsonToCsv (.varr (it :: tl)) = ""
      rw [jsonToCsv]
      rw [if_neg (by simp)]
      rw [csvRowsOf, hkeys, hfil]
      rfl

theorem claim_C1_witness :
    jsonToCsv (.varr [JsValue.vnull, .vnum 3, .vstr "x"]) = "" ∧
    collectKeys [JsValue.vnull] =
      dedupKeepFirst (([JsValue.vnull].filter isObjLike).flatMap jsKeys) := by
  constructor
  · exact claim_C1_amended.2.2 [.vnull, .vnum 3, .vstr "x"] (by decide)
  · exact claim_C1_amended.1 [.vnull]

theorem objGet_insert_self (obj : List (String × JsValue)) (k : String) (v : JsValue) :
    objGet (objInsert obj k v) k = some v := by
  induction obj with
  | nil => simp [objInsert, objGet]
  | cons kv rest ih =>
    obtain ⟨k0, v0⟩ := kv
    by_cases h : k0 = k <;> simp [objInsert, objGet, h, ih]

theorem objGet_insert_ne (obj : List (String × JsValue)) (q k : String) (v : JsValue)
    (h : q ≠ k) : objGet (objInsert obj q v) k = objGet obj k := by
  induction obj with
  | nil => simp [objInsert, objGet, h]
  | cons kv rest ih =>
    obtain ⟨k0, v0⟩ := kv
    by_cases h0 : k0 = q
    · subst h0
      simp [objInsert, objGet, h]
    · simp [objInsert, objGet, h0, ih]

theorem buildRowAux_no_hit (values : List (List Char)) (k : String) :
    ∀ (hs : List (List Char)) (i : ℕ) (obj : List (String × JsValue)),
      (∀ j (hj : j < hs.length), String.mk (hs.get ⟨j, hj⟩) = k → values.get? (i + j) = none) →
      objGet (buildRowAux values hs i obj) k = objGet obj k := by
  intro hs
  induction hs with
  | nil => intro i obj _; rfl
  | cons hd tl ih =>
    intro i obj hno
    have hstep : ∀ j (hj : j < tl.length),
        String.mk (tl.get ⟨j, hj⟩) = k → values.get? (i + 1 + j) = none := by
      intro j hj hk
      have := hno (j + 1) (by simpa using Nat.succ_lt_succ hj) (by simpa using hk)
      rwa [show i + (j + 1) = i + 1 + j by omega] at this
    cases hv : values.get? i with
    | none =>
      simp only [buildRowAux, hv]
      exact ih _ _ hstep
    | some raw =>
      simp only [buildRowAux, hv]
      rw [ih _ _ hstep]
      have hne : String.mk hd ≠ k := by
        intro he
        have h0 := hno 0 (by simp) (by simpa using he)
        rw [Nat.add_zero] at h0
        rw [h0] at hv
        exact Option.noConfusion hv
      exact objGet_insert_ne _ _ _ _ hne

theorem buildRowAux_not_mentioned (values : List (List Char)) (k : String) :
    ∀ (hs : List (List Char)) (i : ℕ) (obj : List (String × JsValue)),
      k ∉ hs.map String.mk →
      objGet (buildRowAux values hs i obj) k = objGet obj k := by
  intro hs
  induction hs with
  | nil => intro i obj _; rfl
  | cons hd tl ih =>
    intro i obj hnm
    rw [List.map_cons] at hnm
    have hne : String.mk hd ≠ k := fun he => hnm (he ▸ List.mem_cons_self _ _)
    have htl : k ∉ tl.map String.mk := fun hm => hnm (List.mem_cons_of_mem _ hm)
    cases hv : values.get? i with
    | none =>
      simp only [buildRowAux, hv]
      exact ih _ _ htl
    | some raw =>
      simp only [buildRowAux, hv]
      rw [ih _ _ htl]
      exact objGet_insert_ne _ _ _ _ hne

theorem buildRowAux_append (values pre post : List (List Char)) (i : ℕ)
    (obj : List (String × JsValue)) :
    buildRowAux values (pre ++ post) i obj =
      buildRowAux values post (i + pre.length) (buildRowAux values pre i obj) := by
  induction pre generalizing i obj with
  | nil => simp [buildRowAux]
  | cons hd tl ih =>
    simp only [List.cons_append, buildRowAux, List.length_cons, List.append_eq]
    rw [ih]
    congr 1
    omega

/-- Claim C5: in fromCsv, a header whose every occurrence lies beyond
the row's last field is absent from the produced mapping, whereas a
present-but-empty field produces the key with value null; concretely,
row 1 under headers a,b,c yields only the a key, while row 1, under
headers a,b yields a mapped to one and b mapped to null. -/
theorem claim_C5 :
    (∀ (headers values : List (List Char)) (k : String),
      (∀ j (hj : j < headers.length),
        String.mk (headers.get ⟨j, hj⟩) = k → values.length ≤ j) →
      objGet (buildRow headers values) k = none) ∧
    (∀ (headers values : List (List Char)) (i : ℕ) (hd raw : List Char),
      (headers.map String.mk).Nodup →
      headers.get? i = some hd →
      values.get? i = some raw →
      unquoteField (trimChars raw) = [] →
      objGet (buildRow headers values) (String.mk hd) = some .vnull) ∧
    csvToJsonRows "a,b,c\n1" = [[("a", JsValue.vnum 1)]] ∧
    csvToJsonRows "a,b\n1," = [[("a", JsValue.vnum 1), ("b", JsValue.vnull)]] := by
  refine ⟨?_, ?_, rfl, rfl⟩
  · intro headers values k hbey
    rw [buildRow, buildRowAux_no_hit]
    · rfl
    · intro j hj hk
      rw [Nat.zero_add]
      exact List.get?_eq_none.mpr (hbey j hj hk)
  · intro headers values i hd raw hnd hih hiv hemp
    have hi : i < headers.length := by
      by_contra hcon
      rw [List.get?_eq_none.mpr (Nat.le_of_not_lt hcon)] at hih
      exact Option.noConfusion hih
    have hget : headers.get ⟨i, hi⟩ = hd := by
      rw [List.get?_eq_get hi] at hih
      exact Option.some.inj hih
    have hsplit : headers = headers.take i ++ hd :: headers.drop (i + 1) := by
      conv_lhs => rw [← List.take_append_drop i headers]
      congr 1
      rw [List.drop_eq_getElem_cons hi]
      congr 1
    have hnm : String.mk hd ∉ (headers.drop (i + 1)).map String.mk := by
      intro hmem
      have hnd2 := hnd
      rw [hsplit, List.map_append, List.map_cons] at hnd2
      exact (List.nodup_cons.mp (List.nodup_append.mp hnd2).2.1).1 hmem
    have hlen : (headers.take i).length = i := by
      rw [List.length_take]
      exact min_eq_left (Nat.le_of_lt hi)
    rw [buildRow]
    conv_lhs => rw [hsplit]
    rw [buildRowAux_append, hlen, Nat.zero_add]
    simp only [buildRowAux, hiv]
    rw [buildRowAux_not_mentioned _ _ _ _ _ hnm]
    have hcf : coerceField raw = .vnull := by
      rw [coerceField, hemp]
      rfl
    rw [hcf]
    exact objGet_insert_self _ _ _

theorem claim_C5_witness :
    objGet (buildRow [['b']] []) "b" = none ∧
    objGet (buildRow [['a'], ['b']] [['1'], []]) "b" = some .vnull := by
  constructor
  · exact claim_C5.1 [['b']] [] "b" (fun j hj _ => Nat.zero_le j)
  · exact claim_C5.2.1 [['a'], ['b']] [['1'], []] 1 ['b'] [] (by decide) (by decide)
      (by decide) (by decide)

/-- Claim C7: for an expanded non-empty container with N children, the
first expansion renders the minimum of the page size fifty and N (so at
most fifty), one show-more renders the minimum of one hundred and N,
show-all renders all N, and each show-more activation performed while
children remain adds exactly the minimum of fifty and the remainder. -/
theorem claim_C7 (data : JsValue) (hobj : isObjLike data = true)
    (hpos : 0 < (jsKeys data).length) :
    renderedChildren (toggleExpand (initTreeState 1)) data =
      min 50 ((jsKeys data).length) ∧
    min 50 ((jsKeys data).length) ≤ 50 ∧
    renderedChildren (showMore (toggleExpand (initTreeState 1))) data =
      min 100 ((jsKeys data).length) ∧
    renderedChildren (showAll (toggleExpand (initTreeState 1)) data) data =
      (jsKeys data).length ∧
    (∀ s : TreeNodeState, s.isExpanded = true → s.displayLimit < (jsKeys data).length →
      renderedChildren (showMore s) data =
        renderedChildren s data + min 50 ((jsKeys data).length - s.displayLimit)) := by
  have hne : (jsKeys data).length ≠ 0 := Nat.pos_iff_ne_zero.mp hpos
  refine ⟨?_, Nat.min_le_left _ _, ?_, ?_, ?_⟩
  · simp [renderedChildren, toggleExpand, initTreeState, ITEMS_PER_PAGE, hobj, hne,
      List.length_take]
  · simp [renderedChildren, toggleExpand, showMore, initTreeState, ITEMS_PER_PAGE, hobj, hne,
      List.length_take]
  · simp [renderedChildren, toggleExpand, showAll, initTreeState, ITEMS_PER_PAGE, hobj, hne,
      List.length_take]
  · intro s hexp hlim
    simp only [renderedChildren, showMore, ITEMS_PER_PAGE, hobj, hexp, hne, ne_eq,
      not_false_iff, and_true, true_and, if_true, List.length_take, if_pos,
      and_self, reduceIte]
    omega

theorem claim_C7_witness :
    renderedChildren (toggleExpand (initTreeState 1)) (.varr (List.replicate 120 .vnull)) = 50 ∧
    renderedChildren (showMore (toggleExpand (initTreeState 1)))
      (.varr (List.replicate 120 .vnull)) = 100 ∧
    renderedChildren (showAll (toggleExpand (initTreeState 1)) (.varr (List.replicate 120 .vnull)))
      (.varr (List.replicate 120 .vnull)) = 120 := by
  have hlen : (jsKeys (JsValue.varr (List.replicate 120 .vnull))).length = 120 := by
    simp [jsKeys]
  obtain ⟨h1, _, h3, h4, _⟩ :=
    claim_C7 (.varr (List.replicate 120 .vnull)) rfl (by rw [hlen]; norm_num)
  rw [hlen] at h1 h3 h4
  refine ⟨?_, ?_, h4⟩
  · rw [h1]
    norm_num
  · rw [h3]
    norm_num
theorem dropWhile_head_not (p : Char → Bool) (l : List Char) (c : Char) (cs' : List Char)
    (h : l.dropWhile p = c :: cs') : p c = false := by
  induction l with
  | nil => simp [List.dropWhile] at h
  | cons x xs ih =>
    rw [List.dropWhile_cons] at h
    by_cases hp : p x
    · rw [if_pos hp] at h
      exact ih h
    · rw [if_neg hp] at h
      cases h
      exact Bool.not_eq_true _ |>.mp hp

theorem getLast?_dropWhile (p : Char → Bool) (l : List Char)
    (h : l.dropWhile p ≠ []) : (l.dropWhile p).getLast? = l.getLast? := by
  induction l with
  | nil => simp [List.dropWhile] at h
  | cons x xs ih =>
    rw [List.dropWhile_cons]
    by_cases hp : p x
    · rw [List.dropWhile_cons, if_pos hp] at h
      have hxs : xs ≠ [] := by
        intro he
        rw [he] at h
        simp [List.dropWhile] at h
      rw [if_pos hp, ih h]
      obtain ⟨y, ys, rfl⟩ := List.exists_cons_of_ne_nil hxs
      rfl
    · rw [if_neg hp]

theorem trimChars_head (cs : List Char) (c : Char) (rest : List Char)
    (h : trimChars cs = c :: rest) : isWsChar c = false := by
  unfold trimChars at h
  set X := (cs.dropWhile isWsChar).reverse.dropWhile isWsChar with hX
  have hne : X ≠ [] := by
    intro he
    rw [he] at h
    simp at h
  have h1 : X.getLast? = some c := by
    have := congrArg List.head? h
    rwa [List.head?_reverse, List.head?_cons] at this
  rw [getLast?_dropWhile _ _ hne, List.getLast?_reverse] at h1
  obtain ⟨u, us, hu⟩ : ∃ u us, cs.dropWhile isWsChar = u :: us := by
    rcases he : cs.dropWhile isWsChar with _ | ⟨u, us⟩
    · rw [he] at h1
      simp at h1
    · exact ⟨u, us, rfl⟩
  rw [hu, List.head?_cons] at h1
  cases h1
  exact dropWhile_head_not _ _ _ _ hu

theorem trimChars_last (cs : List Char) (d : Char)
    (h : (trimChars cs).getLast? = some d) : isWsChar d = false := by
  unfold trimChars at h
  rw [List.getLast?_reverse] at h
  obtain ⟨u, us, hu⟩ : ∃ u us,
      (cs.dropWhile isWsChar).reverse.dropWhile isWsChar = u :: us := by
    rcases he : (cs.dropWhile isWsChar).reverse.dropWhile isWsChar with _ | ⟨u, us⟩
    · rw [he] at h
      simp at h
    · exact ⟨u, us, rfl⟩
  rw [hu, List.head?_cons] at h
  cases h
  exact dropWhile_head_not _ _ _ _ hu

theorem stripCr_getLast (cs : List Char) (d : Char)
    (h : cs.getLast? = some d) (hd : isWsChar d = false) :
    (stripCr cs).getLast? = some d := by
  induction cs using stripCr.induct with
  | case1 => simp at h
  | case2 c =>
    rw [List.getLast?_singleton] at h
    cases h
    rw [stripCr]
    simp
  | case3 c1 c2 rest hcc ih =>
    obtain ⟨h1, h2⟩ := hcc
    subst h1 h2
    rcases rest with _ | ⟨y, ys⟩
    · rw [show (['\r', '\n'] : List Char).getLast? = some '\n' from rfl] at h
      cases h
      simp [isWsChar] at hd
    · have hlast : (y :: ys).getLast? = some d := h
      have := ih hlast
      rw [stripCr, if_pos ⟨rfl, rfl⟩]
      have hne : stripCr (y :: ys) ≠ [] := by
        intro he
        rw [he] at this
        simp at this
      obtain ⟨z, zs, hz⟩ := List.exists_cons_of_ne_nil hne
      rw [hz] at this ⊢
      exact this
  | case4 c1 c2 rest hcc ih =>
    rw [stripCr, if_neg hcc]
    have hlast : (c2 :: rest).getLast? = some d := h
    have := ih hlast
    have hne : stripCr (c2 :: rest) ≠ [] := by
      intro he
      rw [he] at this
      simp at this
    obtain ⟨z, zs, hz⟩ := List.exists_cons_of_ne_nil hne
    rw [hz] at this ⊢
    exact this

theorem stripCr_cons_head (c : Char) (cs : List Char) (h : c ≠ '\r') :
    stripCr (c :: cs) = c :: stripCr cs := by
  rcases cs with _ | ⟨y, ys⟩
  · rw [stripCr, stripCr]
  · rw [stripCr, if_neg (fun hcc => h hcc.1)]

theorem splitNl_ne_nil (cs : List Char) : splitNl cs ≠ [] := by
  induction cs with
  | nil => simp [splitNl]
  | cons c rest ih =>
    rw [splitNl]
    by_cases hc : c = '\n'
    · simp [hc]
    · rw [if_neg hc]
      rcases he : splitNl rest with _ | ⟨l, ls⟩
      · exact absurd he ih
      · simp [consHead]

theorem splitNl_first (c : Char) (cs : List Char) (h : c ≠ '\n') :
    ∃ l ls, splitNl (c :: cs) = (c :: l) :: ls := by
  rw [splitNl, if_neg h]
  rcases he : splitNl cs with _ | ⟨l, ls⟩
  · exact absurd he (splitNl_ne_nil cs)
  · exact ⟨l, ls, rfl⟩

theorem splitNl_last (cs : List Char) (d : Char)
    (h : cs.getLast? = some d) (hd : d ≠ '\n') :
    ∀ L, (splitNl cs).getLast? = some L → L ≠ [] := by
  induction cs with
  | nil => simp at h
  | cons c rest ih =>
    intro L hL
    rcases rest with _ | ⟨y, ys⟩
    · rw [List.getLast?_singleton] at h
      cases h
      rw [splitNl, if_neg hd] at hL
      simp [splitNl, consHead] at hL
      rw [← hL]
      simp
    · have hrest : (y :: ys).getLast? = some d := h
      by_cases hc : c = '\n'
      · rw [splitNl, if_pos hc] at hL
        have hne := splitNl_ne_nil (y :: ys)
        obtain ⟨x, xs, hx⟩ := List.exists_cons_of_ne_nil hne
        rw [hx] at hL
        rw [show (([] : List Char) :: x :: xs).getLast? = (x :: xs).getLast? from rfl] at hL
        exact ih hrest L (hx ▸ hL)
      · rw [splitNl, if_neg hc] at hL
        have hne := splitNl_ne_nil (y :: ys)
        obtain ⟨x, xs, hx⟩ := List.exists_cons_of_ne_nil hne
        rw [hx] at hL
        rcases xs with _ | ⟨x2, xs2⟩
        · simp only [consHead, List.getLast?_singleton] at hL
          cases hL
          simp
        · simp only [consHead] at hL
          rw [show ((c :: x) :: x2 :: xs2).getLast? = (x2 :: xs2).getLast? from rfl] at hL
          have := ih hrest L (by rw [hx]; exact hL)
          exact this

/-- Claim C8: fromCsv yields the empty sequence whenever the input has
fewer than two non-empty lines after trimming; the model is a total
function, so no error can be raised. -/
theorem claim_C8 (s : String)
    (h : ((splitLines (trimChars s.data)).filter (fun l => l ≠ [])).length < 2) :
    csvToJsonRows s = [] ∧ csvToJson s = [] := by
  have hrows : csvToJsonRows s = [] := by
    simp only [csvToJsonRows]
    split
    · rfl
    next hlen =>
      exfalso
      have hlen2 : 2 ≤ (splitLines (trimChars s.data)).length := Nat.le_of_not_lt hlen
      rcases hts : trimChars s.data with _ | ⟨c, t'⟩
      · rw [hts] at hlen2
        simp [splitLines, stripCr, splitNl] at hlen2
      · have hcw : isWsChar c = false := trimChars_head s.data c t' hts
        have hcn : c ≠ '\n' := by
          intro he
          rw [he] at hcw
          simp [isWsChar] at hcw
        have hcr : c ≠ '\r' := by
          intro he
          rw [he] at hcw
          simp [isWsChar] at hcw
        have hlne : trimChars s.data ≠ [] := by
          rw [hts]
          simp
        obtain ⟨d, hdl⟩ := Option.isSome_iff_exists.mp (List.getLast?_isSome.mpr hlne)
        have hdw : isWsChar d = false := trimChars_last s.data d hdl
        have hdn : d ≠ '\n' := by
          intro he
          rw [he] at hdw
          simp [isWsChar] at hdw
        have hsc : stripCr (trimChars s.data) = c :: stripCr t' := by
          rw [hts]
          exact stripCr_cons_head c t' hcr
        have hlast : (stripCr (trimChars s.data)).getLast? = some d :=
          stripCr_getLast _ _ hdl hdw
        obtain ⟨l, ls, hfirst⟩ := splitNl_first c (stripCr t') hcn
        have hSL : splitLines (trimChars s.data) = (c :: l) :: ls := by
          rw [splitLines, hsc, hfirst]
        have hlsne : ls ≠ [] := by
          intro he
          rw [hSL, he] at hlen2
          simp at hlen2
        obtain ⟨L, hLl⟩ := Option.isSome_iff_exists.mp
          (List.getLast?_isSome.mpr (splitNl_ne_nil (stripCr (trimChars s.data))))
        have hLne : L ≠ [] := splitNl_last _ _ hlast hdn L hLl
        have hLmem : L ∈ ls := by
          have hgl : (splitLines (trimChars s.data)).getLast? = some L := hLl
          rw [hSL] at hgl
          obtain ⟨m, ms, rfl⟩ := List.exists_cons_of_ne_nil hlsne
          rw [show ((c :: l) :: m :: ms).getLast? = (m :: ms).getLast? from rfl] at hgl
          exact List.mem_of_mem_getLast? hgl
        have hmemf : L ∈ ls.filter (fun x => decide (x ≠ [])) :=
          List.mem_filter.mpr ⟨hLmem, by simpa using hLne⟩
        have hpos : 0 < (ls.filter (fun x => decide (x ≠ []))).length :=
          List.length_pos.mpr (List.ne_nil_of_mem hmemf)
        rw [hSL, List.filter_cons] at h
        rw [if_pos (by simp)] at h
        rw [List.length_cons] at h
        omega
  refine ⟨hrows, ?_⟩
  rw [csvToJson, hrows]
  rfl

theorem claim_C8_witness :
    ((splitLines (trimChars ("only one line" : String).data)).filter
      (fun l => l ≠ [])).length < 2 ∧
    csvToJsonRows "only one line" = [] := by
  refine ⟨by decide, (claim_C8 "only one line" (by decide)).1⟩
